import Mathlib

/-! # Wingman EMG pipeline: filters and feature extraction

A shallow embedding of the numeric functions of `src/main.cpp`
(`notchFilter`, `lowPassFilter`, `highPassFilter`, `computeRMS`, `computeMAV`,
`extractFeatures`) and theorems about them.

Modelling conventions.

* `double` samples are elements of an exact ordered field `α` (`ℚ` for
  evaluation, `ℝ` for statements about real arithmetic); rounding is not
  modelled.
* `arma::vec` is a `List α`; its `n_elem` is an `arma::uword`, an unsigned
  64-bit integer, so a vector has fewer than `2 ^ 64` elements, and unsigned
  arithmetic on `n_elem` wraps modulo `2 ^ 64`.
* Armadillo's run-time checks (bounds checks of `subvec` and of element access,
  size checks of element-wise operations, failing allocations) throw; a throwing
  call is the `Except.error` result.
* The C `int` loop counter is a natural number: it starts at a non-negative
  value and only counts upwards; overflow of `int` is not modelled.
-/

namespace Wingman

/-- Exceptions raised by Armadillo's run-time checks. -/
inductive ArmaError where
  /-- The requested number of elements cannot be allocated. -/
  | alloc
  /-- An index handed to `subvec` or to element access lies outside the vector. -/
  | outOfBounds
  /-- The operands of an element-wise operation differ in size. -/
  | sizeMismatch
  deriving DecidableEq, Repr

/-- The modulus of `arma::uword` arithmetic. -/
def uwordModulus : Nat := 2 ^ 64

/-- Subtraction of two `arma::uword` values, wrapping modulo `2 ^ 64`. -/
def uwordSub (a b : Nat) : Nat :=
  (a % uwordModulus + uwordModulus - b % uwordModulus) % uwordModulus

section Vec

variable {α : Type} [LinearOrderedField α]

/-- Bounds-checked slice `v.subvec(first, last)`, both ends included: Armadillo
throws when `first > last` or `last >= n_elem`. -/
def subvec (v : List α) (first last : Nat) : Except ArmaError (List α) :=
  if first > last ∨ last ≥ v.length then .error .outOfBounds
  else .ok ((v.drop first).take (last + 1 - first))

/-- Bounds-checked read `v(i)`. -/
def elemAt {β : Type} (v : List β) (i : Nat) : Except ArmaError β :=
  match v[i]? with
  | some x => .ok x
  | none => .error .outOfBounds

/-- Bounds-checked write `v(i) = x`. -/
def setElem {β : Type} (v : List β) (i : Nat) (x : β) : Except ArmaError (List β) :=
  if i < v.length then .ok (v.set i x) else .error .outOfBounds

/-- Inner product `arma::dot(a, b)`; the operands must have the same size. -/
def dot (a b : List α) : Except ArmaError α :=
  if a.length = b.length then .ok (List.zipWith (· * ·) a b).sum
  else .error .sizeMismatch

/-- Element-wise difference `a - b` of two vectors of the same size. -/
def vecSub (a b : List α) : Except ArmaError (List α) :=
  if a.length = b.length then .ok (List.zipWith (· - ·) a b)
  else .error .sizeMismatch

/-- The body of the `for` loop of `lowPassFilter` (lines 37-48), run from counter
value `i`. The counter and the bound are not changed by the body, so started with
`fuel = bound - i` the loop ends by its own condition `i < bound`, never by lack
of fuel. `bound` is the value of `signal.n_elem - halfWindowSize`. -/
def lowPassLoop (signal window : List α) (windowSize : Int) (halfWindowSize bound : Nat) :
    Nat → Nat → List α → Except ArmaError (List α)
  | 0, _, filteredSignal => .ok filteredSignal
  | fuel + 1, i, filteredSignal =>
    if i < bound then do
      let signalSegment ← subvec signal (i - halfWindowSize) (i + halfWindowSize)
      let value ←
        (if signalSegment.length = window.length then
          (do let d ← dot signalSegment window; pure (d / (windowSize : α)))
        else elemAt signal i)
      let filteredSignal ← setElem filteredSignal i value
      lowPassLoop signal window windowSize halfWindowSize bound fuel (i + 1) filteredSignal
    else .ok filteredSignal

/-- The function `lowPassFilter` of `src/main.cpp`, lines 31-51.

`windowSize / 2` is C integer division (truncating). Constructing
`window(windowSize, fill::ones)` converts `windowSize` to `uword`; a negative
`int` becomes a count of at least `2 ^ 64 - 2 ^ 31` elements, whose allocation
throws. The loop condition `i < signal.n_elem - halfWindowSize` is evaluated in
`uword` arithmetic. -/
def lowPassFilter (signal : List α) (windowSize : Int) : Except ArmaError (List α) :=
  if windowSize < 0 then .error .alloc
  else
    let halfWindowSize : Nat := (Int.tdiv windowSize 2).toNat
    let window : List α := List.replicate windowSize.toNat 1
    let filteredSignal : List α := List.replicate signal.length 0
    let bound : Nat := uwordSub signal.length halfWindowSize
    lowPassLoop signal window windowSize halfWindowSize bound
      (bound - halfWindowSize) halfWindowSize filteredSignal

/-- The function `highPassFilter` of `src/main.cpp`, lines 54-58. -/
def highPassFilter (signal : List α) (windowSize : Int) : Except ArmaError (List α) := do
  let lowPassFiltered ← lowPassFilter signal windowSize
  let highPassFiltered ← vecSub signal lowPassFiltered
  pure highPassFiltered

/-- The value the loop body of `lowPassFilter` stores at an index `j` it visits: the
segment sum over `windowSize` when the segment and the window have the same number of
elements, the input sample otherwise. A proof device, not part of the program. -/
def cellValue (signal : List α) (windowSize : Int) (halfWindowSize j : Nat) : α :=
  if 2 * halfWindowSize + 1 = windowSize.toNat then
    ((signal.drop (j - halfWindowSize)).take (2 * halfWindowSize + 1)).sum / (windowSize : α)
  else signal.getD j 0

end Vec

section Notch

/-- Complex numbers with parts in `α`, the element type `arma::cx_double` of
`arma::cx_vec`. -/
structure Cx (α : Type) where
  /-- Real part. -/
  re : α
  /-- Imaginary part. -/
  im : α
  deriving DecidableEq, Repr

variable {α : Type} [LinearOrderedField α]

instance : Zero (Cx α) := ⟨⟨0, 0⟩⟩

instance : One (Cx α) := ⟨⟨1, 0⟩⟩

instance : Add (Cx α) := ⟨fun a b => ⟨a.re + b.re, a.im + b.im⟩⟩

instance : Mul (Cx α) := ⟨fun a b => ⟨a.re * b.re - a.im * b.im, a.re * b.im + a.im * b.re⟩⟩

/-- Power of a complex number with a natural exponent. -/
def Cx.pow (z : Cx α) : Nat → Cx α
  | 0 => 1
  | n + 1 => Cx.pow z n * z

/-- The embedding of a real sample into the complex numbers. -/
def Cx.ofReal (x : α) : Cx α := ⟨x, 0⟩

/-- Armadillo's `arma::linspace<arma::vec>(start, stop, num)`: `num` values evenly
spaced from `start` to `stop`, the last one being `stop` itself. As Armadillo
documents, for `num = 1` the single element is `stop`; for `num = 0` the vector is
empty. -/
def linspace (start stop : α) (num : Nat) : List α :=
  if 2 ≤ num then
    let delta : α := (stop - start) / ((num - 1 : Nat) : α)
    (List.range (num - 1)).map (fun (i : Nat) => start + (i : α) * delta) ++ [stop]
  else if num = 1 then [stop]
  else []

/-- Armadillo's `arma::fft` of a real vector `x` of length `N`: the discrete Fourier
transform `X[k] = ∑ n < N, x[n] * w ^ (k * n)` with `w = exp (-2πi / N)`, a vector of
`N` complex numbers. The root of unity `w` is not expressible in an arbitrary exact
field, so it is supplied by `unityRoot N`. -/
def fft (unityRoot : Nat → Cx α) (x : List α) : List (Cx α) :=
  (List.range x.length).map fun k =>
    (List.zipWith (fun v n => Cx.ofReal v * Cx.pow (unityRoot x.length) (k * n))
      x (List.range x.length)).foldl (· + ·) 0

/-- Element-wise (Schur) product `a % b` of two complex vectors of the same size. -/
def schur (a b : List (Cx α)) : Except ArmaError (List (Cx α)) :=
  if a.length = b.length then .ok (List.zipWith (· * ·) a b)
  else .error .sizeMismatch

/-- The `for` loop of `notchFilter` (lines 14-18), run from counter value `i`; started
with `fuel = frequencies.n_elem - i` it ends by its own condition. -/
def notchLoop (frequencies : List α) (humFrequency bandwidth : α) :
    Nat → Nat → List (Cx α) → Except ArmaError (List (Cx α))
  | 0, _, transferFunction => .ok transferFunction
  | fuel + 1, i, transferFunction =>
    if i < frequencies.length then do
      let f ← elemAt frequencies i
      let transferFunction ←
        (if |f - humFrequency| < bandwidth / 2 then setElem transferFunction i 0
        else pure transferFunction)
      notchLoop frequencies humFrequency bandwidth fuel (i + 1) transferFunction
    else .ok transferFunction

/-- The function `notchFilter` of `src/main.cpp`, lines 9-28. The result is the real
part of the filtered spectrum: the source calls no inverse transform. -/
def notchFilter (unityRoot : Nat → Cx α) (signal : List α)
    (sampleRate humFrequency bandwidth : α) : Except ArmaError (List α) := do
  let frequencies := linspace 0 sampleRate signal.length
  let transferFunction : List (Cx α) := List.replicate signal.length 1
  let transferFunction ←
    notchLoop frequencies humFrequency bandwidth frequencies.length 0 transferFunction
  let fft_signal := fft unityRoot signal
  let filtered_fft_signal ← schur fft_signal transferFunction
  let filteredSignal := filtered_fft_signal.map Cx.re
  pure filteredSignal

/-- Complex conjugate. -/
def Cx.conj (z : Cx α) : Cx α := ⟨z.re, -z.im⟩

/-- The inverse discrete Fourier transform as Armadillo's `arma::ifft` computes it:
`x[n] = (1 / N) * ∑ k < N, X[k] * conj w ^ (k * n)` with `w = exp (-2πi / N)`. The
source never calls it; it is needed to write down what the specification asks of
`notchFilter`. -/
def ifft (unityRoot : Nat → Cx α) (X : List (Cx α)) : List (Cx α) :=
  (List.range X.length).map fun n =>
    Cx.ofReal (1 / (X.length : α)) *
      (List.zipWith (fun c k => c * Cx.pow (Cx.conj (unityRoot X.length)) (k * n))
        X (List.range X.length)).foldl (· + ·) 0

/-- The notch filter in the specification's words (section 4.1): a frequency axis of
`signal.length` points from 0 to `sampleRate`, the forward transform, a transfer
function that is 0 where the axis point is closer than `bandwidth / 2` to
`centerFrequency` and 1 elsewhere, their element-wise product, the inverse transform,
and the real part of that. -/
def notchFilterSpec (unityRoot : Nat → Cx α) (signal : List α)
    (sampleRate centerFrequency bandwidth : α) : List α :=
  let axis := linspace 0 sampleRate signal.length
  let transfer : List (Cx α) :=
    axis.map fun f => if |f - centerFrequency| < bandwidth / 2 then 0 else 1
  let product := List.zipWith (· * ·) (fft unityRoot signal) transfer
  (ifft unityRoot product).map Cx.re

end Notch

section Features

variable {α : Type} [LinearOrderedField α]

/-- The function `computeRMS` of `src/main.cpp`, lines 117-123. The accumulator adds
`std::abs(value)`; `std::sqrt` is supplied as `sqrt`. The division is exact field
division (for an empty vector the source computes `0.0 / 0`, a NaN, which an exact
field does not have). -/
def computeRMS (sqrt : α → α) (signal : List α) : α :=
  let sumOfSquares := signal.foldl (fun acc value => acc + |value|) 0
  sqrt (sumOfSquares / (signal.length : α))

/-- The function `computeMAV` of `src/main.cpp`, lines 126-132. -/
def computeMAV (signal : List α) : α :=
  let sumOfAbs := signal.foldl (fun acc value => acc + |value|) 0
  sumOfAbs / (signal.length : α)

/-- The function `extractFeatures` of `src/main.cpp`, lines 135-142. -/
def extractFeatures (sqrt : α → α) (filteredSignal : List α) : List α :=
  let features : List α := []
  let rmsValue := computeRMS sqrt filteredSignal
  let features := features ++ [rmsValue]
  let mavValue := computeMAV filteredSignal
  let features := features ++ [mavValue]
  features

end Features

/-! ## Auxiliary lemmas on the vector primitives -/

section VecLemmas

set_option linter.unusedSectionVars false

variable {α : Type} [LinearOrderedField α]

theorem zipWith_mul_replicate_one (seg : List α) :
    ∀ m, seg.length = m → List.zipWith (· * ·) seg (List.replicate m (1 : α)) = seg := by
  induction seg with
  | nil => intro m hm; simp
  | cons x xs ih =>
    intro m hm
    cases m with
    | zero => simp at hm
    | succ m =>
      simp only [List.length_cons, Nat.add_right_cancel_iff] at hm
      simp [List.replicate_succ, ih m hm]

theorem subvec_ok (signal : List α) (h i : Nat) (hih : h ≤ i) (hin : i + h < signal.length) :
    subvec signal (i - h) (i + h)
      = .ok ((signal.drop (i - h)).take (2 * h + 1)) := by
  unfold subvec
  have h1 : ¬ (i - h > i + h ∨ i + h ≥ signal.length) := by omega
  have h2 : i + h + 1 - (i - h) = 2 * h + 1 := by omega
  rw [if_neg h1, h2]

theorem segment_length (signal : List α) (h i : Nat) (hih : h ≤ i)
    (hin : i + h < signal.length) :
    ((signal.drop (i - h)).take (2 * h + 1)).length = 2 * h + 1 := by
  simp only [List.length_take, List.length_drop]
  omega

theorem lowPassLoop_step (signal : List α) (windowSize : Int) (h bound fuel i : Nat)
    (out : List α) (hib : i < bound) (hih : h ≤ i) (hin : i + h < signal.length)
    (hout : out.length = signal.length) :
    lowPassLoop signal (List.replicate windowSize.toNat 1) windowSize h bound (fuel + 1) i out
      = lowPassLoop signal (List.replicate windowSize.toNat 1) windowSize h bound fuel (i + 1)
          (out.set i (cellValue signal windowSize h i)) := by
  have hi : i < signal.length := by omega
  rw [lowPassLoop, if_pos hib, subvec_ok signal h i hih hin]
  have hlen := segment_length signal h i hih hin
  have hset : ∀ v : α, setElem out i v = .ok (out.set i v) := by
    intro v; unfold setElem; rw [if_pos (by omega)]
  simp only [bind, Except.bind, pure, Except.pure]
  rw [hlen]
  simp only [List.length_replicate]
  unfold cellValue
  by_cases hw : 2 * h + 1 = windowSize.toNat
  · have hd : dot ((signal.drop (i - h)).take (2 * h + 1))
        (List.replicate windowSize.toNat (1 : α))
        = .ok ((signal.drop (i - h)).take (2 * h + 1)).sum := by
      unfold dot
      rw [if_pos (by simp only [List.length_replicate]; omega),
        zipWith_mul_replicate_one _ _ (by omega)]
    rw [if_pos hw, if_pos hw, hd]
    simp only [hset]
  · have he : elemAt signal i = .ok (signal.getD i 0) := by
      unfold elemAt
      rw [List.getElem?_eq_getElem hi, List.getD_eq_getElem signal 0 hi]
    rw [if_neg hw, if_neg hw, he]
    simp only [hset]

/-- The loop of `lowPassFilter` when the bound has not wrapped (`bound + h` is at most
the signal length): it ends normally, keeps the length, writes `cellValue` at the
indices from `i` up to `bound` and leaves the others as they were. -/
theorem lowPassLoop_spec (signal : List α) (windowSize : Int) (h bound : Nat)
    (hb : bound + h ≤ signal.length) :
    ∀ (fuel i : Nat) (out : List α), out.length = signal.length → h ≤ i → i + fuel = bound →
      ∃ res, lowPassLoop signal (List.replicate windowSize.toNat 1) windowSize h bound fuel i out
          = .ok res ∧ res.length = signal.length ∧
        ∀ j, res[j]? = if i ≤ j ∧ j < bound then some (cellValue signal windowSize h j)
          else out[j]? := by
  intro fuel
  induction fuel with
  | zero =>
    intro i out hout _ hfuel
    refine ⟨out, by rw [lowPassLoop], hout, ?_⟩
    intro j
    rw [if_neg (by omega)]
  | succ fuel ih =>
    intro i out hout hih hfuel
    rw [lowPassLoop_step signal windowSize h bound fuel i out (by omega) hih (by omega) hout]
    obtain ⟨res, hres, hlen, hget⟩ :=
      ih (i + 1) (out.set i (cellValue signal windowSize h i))
        (by rw [List.length_set, hout]) (by omega) (by omega)
    refine ⟨res, hres, hlen, ?_⟩
    intro j
    rw [hget j]
    by_cases hj : i = j
    · subst hj
      rw [if_neg (by omega), if_pos (by omega), List.getElem?_set_self (by omega)]
    · rw [List.getElem?_set_ne hj]
      by_cases hj2 : i + 1 ≤ j ∧ j < bound
      · rw [if_pos hj2, if_pos (by omega)]
      · rw [if_neg hj2, if_neg (by omega)]

theorem uwordSub_of_le (n h : Nat) (hn : n < uwordModulus) (hh : h ≤ n) :
    uwordSub n h = n - h := by
  unfold uwordSub
  unfold uwordModulus at *
  omega

theorem tdiv_two_toNat (w : Int) (hw : 0 ≤ w) : (Int.tdiv w 2).toNat = w.toNat / 2 := by
  rw [Int.tdiv_eq_ediv hw (by decide)]
  omega

/-- The whole of `lowPassFilter` when the window size is not negative and its half is
at most the signal length: the call returns a vector of the input's length holding
`cellValue` at the in-range indices and zero elsewhere. -/
theorem lowPassFilter_spec (signal : List α) (windowSize : Int) (hw : 0 ≤ windowSize)
    (hn : signal.length < uwordModulus) (hh : windowSize.toNat / 2 ≤ signal.length) :
    ∃ res, lowPassFilter signal windowSize = .ok res ∧ res.length = signal.length ∧
      ∀ j, j < signal.length →
        res[j]? = if windowSize.toNat / 2 ≤ j ∧ j + windowSize.toNat / 2 < signal.length
          then some (cellValue signal windowSize (windowSize.toNat / 2) j) else some 0 := by
  unfold lowPassFilter
  rw [if_neg (by omega)]
  simp only [tdiv_two_toNat windowSize hw, uwordSub_of_le _ _ hn hh]
  generalize windowSize.toNat / 2 = h at hh
  by_cases hcase : h ≤ signal.length - h
  · obtain ⟨res, hres, hlen, hget⟩ :=
      lowPassLoop_spec signal windowSize h (signal.length - h) (by omega)
        (signal.length - h - h) h (List.replicate signal.length 0) (by simp) (le_refl _)
        (by omega)
    refine ⟨res, hres, hlen, ?_⟩
    intro j hj
    rw [hget j]
    by_cases hj2 : h ≤ j ∧ j + h < signal.length
    · rw [if_pos hj2, if_pos (by omega)]
    · rw [if_neg hj2, if_neg (by omega)]
      simp [List.getElem?_replicate, hj]
  · have hz : signal.length - h - h = 0 := by omega
    rw [hz, lowPassLoop]
    refine ⟨_, rfl, by simp, ?_⟩
    intro j hj
    rw [if_neg (by omega)]
    simp [List.getElem?_replicate, hj]

theorem bind_eq_ok {ε β γ : Type} (x : Except ε β) (f : β → Except ε γ) (r : γ)
    (hx : (x >>= f) = .ok r) : ∃ a, x = .ok a ∧ f a = .ok r := by
  cases x with
  | error e => exact absurd hx (by simp [bind, Except.bind])
  | ok a => exact ⟨a, rfl, hx⟩

theorem setElem_length {β : Type} (v res : List β) (i : Nat) (x : β)
    (hres : setElem v i x = .ok res) : res.length = v.length := by
  unfold setElem at hres
  by_cases hi : i < v.length
  · rw [if_pos hi] at hres
    injection hres with hres
    rw [← hres, List.length_set]
  · rw [if_neg hi] at hres
    exact absurd hres (by simp)

/-- Whenever the loop of `lowPassFilter` ends normally, the output buffer has kept
its length (whatever the bound, wrapped or not). -/
theorem lowPassLoop_length (signal window : List α) (windowSize : Int) (h bound : Nat) :
    ∀ (fuel i : Nat) (out res : List α),
      lowPassLoop signal window windowSize h bound fuel i out = .ok res →
        res.length = out.length := by
  intro fuel
  induction fuel with
  | zero =>
    intro i out res hres
    rw [lowPassLoop] at hres
    injection hres with hres
    rw [hres]
  | succ fuel ih =>
    intro i out res hres
    rw [lowPassLoop] at hres
    by_cases hib : i < bound
    · rw [if_pos hib] at hres
      obtain ⟨seg, _, hres⟩ := bind_eq_ok _ _ _ hres
      obtain ⟨v, _, hres⟩ := bind_eq_ok _ _ _ hres
      obtain ⟨out2, hset, hres⟩ := bind_eq_ok _ _ _ hres
      rw [ih (i + 1) out2 res hres, setElem_length out out2 i v hset]
    · rw [if_neg hib] at hres
      injection hres with hres
      rw [hres]

theorem lowPassFilter_length (signal : List α) (windowSize : Int) (res : List α)
    (hres : lowPassFilter signal windowSize = .ok res) : res.length = signal.length := by
  unfold lowPassFilter at hres
  by_cases hw : windowSize < 0
  · rw [if_pos hw] at hres
    exact absurd hres (by simp)
  · rw [if_neg hw] at hres
    rw [lowPassLoop_length _ _ _ _ _ _ _ _ res hres, List.length_replicate]

theorem sum_take_drop (l : List α) (a : Nat) :
    ∀ len, ((l.drop a).take len).sum = ∑ k in Finset.range len, l.getD (a + k) 0 := by
  intro len
  induction len with
  | zero => simp
  | succ len ih =>
    rw [List.take_succ, List.sum_append, ih, Finset.sum_range_succ, List.getElem?_drop,
      List.getD_eq_getElem?_getD]
    cases l[a + len]? <;> simp

theorem segment_sum_Icc (signal : List α) (h i : Nat) (hih : h ≤ i) :
    ((signal.drop (i - h)).take (2 * h + 1)).sum
      = ∑ j in Finset.Icc (i - h) (i + h), signal.getD j 0 := by
  rw [sum_take_drop, ← Nat.Ico_succ_right, Finset.sum_Ico_eq_sum_range]
  have h2 : (i + h).succ - (i - h) = 2 * h + 1 := by omega
  rw [h2]

theorem zipWith_sub_add (S : List α) :
    ∀ L : List α, L.length = S.length →
      List.zipWith (· + ·) (List.zipWith (· - ·) S L) L = S := by
  induction S with
  | nil => intro L _; simp
  | cons x xs ih =>
    intro L hL
    cases L with
    | nil => simp at hL
    | cons y ys =>
      simp only [List.length_cons, Nat.add_right_cancel_iff] at hL
      simp [ih ys hL]

theorem highPassFilter_of_lowPass (S L : List α) (w : ℤ) (hL : lowPassFilter S w = .ok L) :
    highPassFilter S w = .ok (List.zipWith (· - ·) S L) := by
  have hlen := lowPassFilter_length S w L hL
  unfold highPassFilter vecSub
  rw [hL]
  simp only [bind, Except.bind, pure, Except.pure]
  rw [if_pos hlen.symm]

theorem half_toNat (w : Int) (hw : 0 ≤ w) : w.toNat / 2 = (w / 2).toNat := by omega

end VecLemmas

/-! ## The low-pass and high-pass filters -/

section Filters

variable {α : Type} [LinearOrderedField α]

/-- C1 (counterexample): on the signal `[1, 2, 3]` with `windowSize = 3` the low-pass
filter returns `[0, 2, 0]`; index 0 is a boundary index (`0 < half = 1`) and the
output there is 0, not the input sample 1. -/
theorem lowPassFilter_boundary_not_copied :
    lowPassFilter ([1, 2, 3] : List ℚ) 3 = .ok [0, 2, 0] ∧
      ([0, 2, 0] : List ℚ)[0]? ≠ ([1, 2, 3] : List ℚ)[0]? := by
  constructor
  · simp [lowPassFilter, uwordSub, uwordModulus, lowPassLoop, subvec, dot, setElem, elemAt,
      Int.tdiv, bind, Except.bind, pure, Except.pure]
    norm_num
  · simp

/-- C1 (amended): for a signal of length `n < 2 ^ 64` and a window size `w ≥ 1` whose
half `w / 2` is at most `n`, `lowPassFilter` returns a vector of length `n` whose value
at every boundary index (`i < half` or `i ≥ n - half`) is 0: the zero-initialised
output is never written there. -/
theorem lowPassFilter_boundary_zero (signal : List α) (w : ℤ) (i : ℕ) (hw : 1 ≤ w)
    (hn : signal.length < 2 ^ 64) (hh : w / 2 ≤ signal.length) (hi : i < signal.length)
    (hb : (i : ℤ) < w / 2 ∨ (signal.length : ℤ) - w / 2 ≤ i) :
    ∃ out, lowPassFilter signal w = .ok out ∧ out.length = signal.length ∧
      out[i]? = some 0 := by
  obtain ⟨res, hres, hlen, hget⟩ :=
    lowPassFilter_spec signal w (by omega) hn (by omega)
  refine ⟨res, hres, hlen, ?_⟩
  rw [hget i hi, if_neg (by omega)]

/-- Witness of C1 (amended): the signal `[1, 2, 3]`, window size 3, boundary index 0. -/
theorem lowPassFilter_boundary_zero_witness :
    ∃ out, lowPassFilter ([1, 2, 3] : List ℚ) 3 = .ok out ∧
      out.length = ([1, 2, 3] : List ℚ).length ∧ out[0]? = some 0 :=
  lowPassFilter_boundary_zero [1, 2, 3] 3 0 (by decide) (by decide) (by decide) (by decide)
    (by decide)

/-- C2: for a signal of length `n < 2 ^ 64`, an odd window size `w ≥ 1` with
`half = w / 2` and an index `i` with `half ≤ i` and `i + half < n`, `lowPassFilter`
returns a vector whose value at `i` is the sum of the samples `signal[i - half]`, ...,
`signal[i + half]` divided by `w`. -/
theorem lowPassFilter_odd_window_average (signal : List α) (w : ℤ) (i : ℕ) (hw : 1 ≤ w)
    (hodd : w % 2 = 1) (hn : signal.length < 2 ^ 64) (hlo : w / 2 ≤ i)
    (hhi : i + w / 2 < signal.length) :
    ∃ out, lowPassFilter signal w = .ok out ∧
      out[i]? = some
        ((∑ j in Finset.Icc (i - (w / 2).toNat) (i + (w / 2).toNat), signal.getD j 0)
          / (w : α)) := by
  obtain ⟨res, hres, _, hget⟩ :=
    lowPassFilter_spec signal w (by omega) hn (by omega)
  refine ⟨res, hres, ?_⟩
  rw [hget i (by omega), if_pos (by omega), half_toNat w (by omega)]
  unfold cellValue
  rw [if_pos (by omega), segment_sum_Icc signal _ i (by omega)]

/-- Witness of C2: the signal `[1, 2, 3, 4, 5]`, window size 3, index 2. -/
theorem lowPassFilter_odd_window_average_witness :
    ∃ out, lowPassFilter ([1, 2, 3, 4, 5] : List ℚ) 3 = .ok out ∧
      out[2]? = some
        ((∑ j in Finset.Icc (2 - ((3 : ℤ) / 2).toNat) (2 + ((3 : ℤ) / 2).toNat),
          ([1, 2, 3, 4, 5] : List ℚ).getD j 0) / ((3 : ℤ) : ℚ)) :=
  lowPassFilter_odd_window_average [1, 2, 3, 4, 5] 3 2 (by decide) (by decide) (by decide)
    (by decide) (by decide)

/-- C3: whenever `lowPassFilter S w` succeeds with result `L`, `highPassFilter S w`
succeeds with a result `H` of the same length with `H[i] = S[i] - L[i]` at every
index `i`, and `H + L = S` element by element. -/
theorem highPassFilter_complement (S L : List α) (w : ℤ)
    (hL : lowPassFilter S w = .ok L) :
    ∃ H, highPassFilter S w = .ok H ∧ H.length = S.length ∧
      (∀ i, i < S.length →
        ∃ s l, S[i]? = some s ∧ L[i]? = some l ∧ H[i]? = some (s - l) ∧ (s - l) + l = s) ∧
      List.zipWith (· + ·) H L = S := by
  have hlen := lowPassFilter_length S w L hL
  refine ⟨List.zipWith (· - ·) S L, highPassFilter_of_lowPass S L w hL, ?_, ?_,
    zipWith_sub_add S L hlen⟩
  · simp [hlen]
  · intro i hi
    have hiL : i < L.length := by omega
    refine ⟨S[i], L[i], List.getElem?_eq_getElem hi, List.getElem?_eq_getElem hiL, ?_,
      sub_add_cancel _ _⟩
    rw [List.getElem?_eq_getElem (by simp [hlen, hi])]
    simp

/-- Witness of C3: the signal `[1, 2, 3]` with window size 3, whose low-pass output is
`[0, 2, 0]`. -/
theorem highPassFilter_complement_witness :
    ∃ H, highPassFilter ([1, 2, 3] : List ℚ) 3 = .ok H ∧
      H.length = ([1, 2, 3] : List ℚ).length ∧
      (∀ i, i < ([1, 2, 3] : List ℚ).length →
        ∃ s l, ([1, 2, 3] : List ℚ)[i]? = some s ∧ ([0, 2, 0] : List ℚ)[i]? = some l ∧
          H[i]? = some (s - l) ∧ (s - l) + l = s) ∧
      List.zipWith (· + ·) H [0, 2, 0] = [1, 2, 3] :=
  highPassFilter_complement [1, 2, 3] [0, 2, 0] 3 (by
    simp [lowPassFilter, uwordSub, uwordModulus, lowPassLoop, subvec, dot, setElem, elemAt,
      Int.tdiv, bind, Except.bind, pure, Except.pure]
    norm_num)

/-- C9: for every signal `S` of length below `2 ^ 64`, `lowPassFilter S 1` returns `S`
itself. -/
theorem lowPassFilter_window_one (S : List α) (hn : S.length < 2 ^ 64) :
    lowPassFilter S 1 = .ok S := by
  obtain ⟨res, hres, hlen, hget⟩ :=
    lowPassFilter_spec S 1 (by decide) hn (by simp)
  rw [hres]
  refine congrArg Except.ok ?_
  apply List.ext_getElem?
  intro j
  by_cases hj : j < S.length
  · rw [hget j hj, if_pos (by simp; omega), List.getElem?_eq_getElem hj]
    have hseg := sum_take_drop S j 1
    simp only [Finset.sum_range_one, add_zero, List.getD_eq_getElem S 0 hj] at hseg
    simp [cellValue, hseg]
  · rw [List.getElem?_eq_none (by omega), List.getElem?_eq_none (by omega)]

/-- Witness of C9: the signal `[4, 7, 9]`. -/
theorem lowPassFilter_window_one_witness :
    lowPassFilter ([4, 7, 9] : List ℚ) 1 = .ok [4, 7, 9] :=
  lowPassFilter_window_one [4, 7, 9] (by decide)

/-- C8 (counterexample): on the two-sample signal `[1, 2]` with `windowSize = 2`
(so `windowSize >= length`) the low-pass filter returns `[0, 0]`, not the input. -/
theorem lowPassFilter_wide_window_not_identity :
    lowPassFilter ([1, 2] : List ℚ) 2 = .ok [0, 0] ∧ ([0, 0] : List ℚ) ≠ [1, 2] := by
  constructor
  · simp [lowPassFilter, uwordSub, uwordModulus, lowPassLoop, Int.tdiv]
  · simp

/-- C8 (amended): for a signal `S` of length `n` with `1 ≤ n < 2 ^ 64` and a window
size `w ≥ n` whose half is at most `n`, `lowPassFilter S w` returns the all-zero vector
of length `n`, except that for odd `w = n` the middle index `n / 2` (the only index
the loop visits) holds the sum of all samples divided by `w`. -/
theorem lowPassFilter_wide_window (S : List α) (w : ℤ) (hn1 : 1 ≤ S.length)
    (hn : S.length < 2 ^ 64) (hw : (S.length : ℤ) ≤ w) (hh : w / 2 ≤ S.length) :
    lowPassFilter S w = .ok
      (if w = S.length ∧ w % 2 = 1 then
        (List.replicate S.length 0).set (S.length / 2) (S.sum / (w : α))
      else List.replicate S.length 0) := by
  obtain ⟨res, hres, hlen, hget⟩ :=
    lowPassFilter_spec S w (by omega) hn (by omega)
  rw [hres]
  refine congrArg Except.ok ?_
  apply List.ext_getElem?
  intro j
  by_cases hj : j < S.length
  · rw [hget j hj]
    by_cases hodd : w = S.length ∧ w % 2 = 1
    · rw [if_pos hodd]
      by_cases hjh : j = S.length / 2
      · subst hjh
        have e1 : S.length / 2 - w.toNat / 2 = 0 := by omega
        have e2 : 2 * (w.toNat / 2) + 1 = S.length := by omega
        have e3 : 2 * (w.toNat / 2) + 1 = w.toNat := by omega
        rw [if_pos (by omega), List.getElem?_set_self (by simp; omega)]
        unfold cellValue
        rw [if_pos e3, e1, e2, List.drop_zero, List.take_length]
      · rw [if_neg (by omega), List.getElem?_set_ne (by omega)]
        simp [List.getElem?_replicate, hj]
    · rw [if_neg hodd, if_neg (by omega)]
      simp [List.getElem?_replicate, hj]
  · rw [List.getElem?_eq_none (by omega), List.getElem?_eq_none]
    split <;> simp <;> omega

/-- Witness of C8 (amended): the signal `[1, 2, 3]` with window size 3, where the middle
sample becomes the mean of the whole signal and the others become 0. -/
theorem lowPassFilter_wide_window_witness :
    lowPassFilter ([1, 2, 3] : List ℚ) 3 = .ok
      (if (3 : ℤ) = ([1, 2, 3] : List ℚ).length ∧ (3 : ℤ) % 2 = 1 then
        (List.replicate ([1, 2, 3] : List ℚ).length 0).set (([1, 2, 3] : List ℚ).length / 2)
          (([1, 2, 3] : List ℚ).sum / ((3 : ℤ) : ℚ))
      else List.replicate ([1, 2, 3] : List ℚ).length 0) :=
  lowPassFilter_wide_window [1, 2, 3] 3 (by decide) (by decide) (by decide) (by decide)

end Filters

/-! ## Feature extraction -/

section FeatureLemmas

variable {α : Type} [LinearOrderedField α]

theorem foldl_abs (x : List α) :
    ∀ acc : α, x.foldl (fun acc value => acc + |value|) acc = acc + (x.map abs).sum := by
  induction x with
  | nil => intro acc; simp
  | cons v vs ih =>
    intro acc
    rw [List.foldl_cons, ih, List.map_cons, List.sum_cons, add_assoc]

theorem extractFeatures_unfold (sqrt : α → α) (x : List α) :
    extractFeatures sqrt x
      = [sqrt ((x.map abs).sum / (x.length : α)), (x.map abs).sum / (x.length : α)] := by
  unfold extractFeatures computeRMS computeMAV
  simp only [foldl_abs, zero_add, List.nil_append, List.singleton_append]

theorem sum_map_abs_replicate (v : α) :
    ∀ n : ℕ, ((List.replicate n v).map abs).sum = (n : α) * |v| := by
  intro n
  induction n with
  | zero => simp
  | succ n ih =>
    rw [List.replicate_succ, List.map_cons, List.sum_cons, ih]
    push_cast
    ring

/-- C6: for every non-empty signal `x` of length `n`, `extractFeatures` returns exactly
two elements, in the order `[RMS, MAV]`, with `MAV = (∑ |x_i|) / n` and
`RMS = sqrt ((∑ |x_i|) / n)`; `sqrt` is whatever square-root function is supplied, in
particular the real square root. -/
theorem extractFeatures_rms_mav (sqrt : α → α) (x : List α) (hx : x ≠ []) :
    (extractFeatures sqrt x).length = 2 ∧
      extractFeatures sqrt x
        = [sqrt ((x.map abs).sum / (x.length : α)), (x.map abs).sum / (x.length : α)] ∧
      computeRMS sqrt x = sqrt ((x.map abs).sum / (x.length : α)) ∧
      computeMAV x = (x.map abs).sum / (x.length : α) := by
  have _hlen : 0 < x.length := List.length_pos.mpr hx
  refine ⟨?_, extractFeatures_unfold sqrt x, ?_, ?_⟩
  · rw [extractFeatures_unfold]
    rfl
  · unfold computeRMS
    simp only [foldl_abs, zero_add]
  · unfold computeMAV
    simp only [foldl_abs, zero_add]

/-- Witness of C6: the signal `[3, -4]` over the reals with the real square root. -/
theorem extractFeatures_rms_mav_witness :
    (extractFeatures Real.sqrt ([3, -4] : List ℝ)).length = 2 ∧
      extractFeatures Real.sqrt ([3, -4] : List ℝ)
        = [Real.sqrt ((([3, -4] : List ℝ).map abs).sum / (([3, -4] : List ℝ).length : ℝ)),
            (([3, -4] : List ℝ).map abs).sum / (([3, -4] : List ℝ).length : ℝ)] ∧
      computeRMS Real.sqrt ([3, -4] : List ℝ)
        = Real.sqrt ((([3, -4] : List ℝ).map abs).sum / (([3, -4] : List ℝ).length : ℝ)) ∧
      computeMAV ([3, -4] : List ℝ)
        = (([3, -4] : List ℝ).map abs).sum / (([3, -4] : List ℝ).length : ℝ) :=
  extractFeatures_rms_mav Real.sqrt [3, -4] (by simp)

/-- C10: for every real `v` and every length `n ≥ 1`, `extractFeatures` (with the real
square root) on the signal of `n` copies of `v` returns `[sqrt |v|, |v|]`, and on the
all-zero signal of length `n` it returns `[0, 0]`. -/
theorem extractFeatures_constant (v : ℝ) (n : ℕ) (hn : 1 ≤ n) :
    extractFeatures Real.sqrt (List.replicate n v) = [Real.sqrt |v|, |v|] ∧
      extractFeatures Real.sqrt (List.replicate n (0 : ℝ)) = [0, 0] := by
  have hn0 : (n : ℝ) ≠ 0 := by
    have : 0 < n := hn
    exact_mod_cast this.ne'
  have key : ∀ u : ℝ, extractFeatures Real.sqrt (List.replicate n u) = [Real.sqrt |u|, |u|] := by
    intro u
    rw [extractFeatures_unfold, sum_map_abs_replicate, List.length_replicate,
      mul_div_cancel_left₀ _ hn0]
  refine ⟨key v, ?_⟩
  rw [key 0, abs_zero, Real.sqrt_zero]

/-- Witness of C10: five copies of `-4`. -/
theorem extractFeatures_constant_witness :
    extractFeatures Real.sqrt (List.replicate 5 (-4 : ℝ)) = [Real.sqrt |(-4 : ℝ)|, |(-4 : ℝ)|] ∧
      extractFeatures Real.sqrt (List.replicate 5 (0 : ℝ)) = [0, 0] :=
  extractFeatures_constant (-4) 5 (by decide)

end FeatureLemmas

/-! ## The notch filter -/

section NotchLemmas

variable {α : Type} [LinearOrderedField α]

theorem Cx.zero_def : (0 : Cx α) = ⟨0, 0⟩ := rfl

theorem Cx.one_def : (1 : Cx α) = ⟨1, 0⟩ := rfl

theorem Cx.add_def (a b : Cx α) : a + b = ⟨a.re + b.re, a.im + b.im⟩ := rfl

theorem Cx.mul_def (a b : Cx α) :
    a * b = ⟨a.re * b.re - a.im * b.im, a.re * b.im + a.im * b.re⟩ := rfl

theorem Cx.mul_one_eq (a : Cx α) : a * 1 = a := by
  rw [Cx.mul_def, Cx.one_def]
  simp

theorem fft_length (unityRoot : Nat → Cx α) (x : List α) :
    (fft unityRoot x).length = x.length := by
  simp [fft]

theorem zipWith_mul_replicate_one_cx (X : List (Cx α)) :
    ∀ m, X.length = m → List.zipWith (· * ·) X (List.replicate m (1 : Cx α)) = X := by
  induction X with
  | nil => intro m _; simp
  | cons x xs ih =>
    intro m hm
    cases m with
    | zero => simp at hm
    | succ m =>
      simp only [List.length_cons, Nat.add_right_cancel_iff] at hm
      simp [List.replicate_succ, ih m hm, Cx.mul_one_eq]

/-- When no point of the frequency axis lies in the stop band, the loop of
`notchFilter` leaves the transfer function as it is. -/
theorem notchLoop_pass (frequencies : List α) (humFrequency bandwidth : α)
    (hpass : ∀ f ∈ frequencies, ¬ |f - humFrequency| < bandwidth / 2) :
    ∀ (fuel i : Nat) (transferFunction : List (Cx α)),
      notchLoop frequencies humFrequency bandwidth fuel i transferFunction
        = .ok transferFunction := by
  intro fuel
  induction fuel with
  | zero => intro i tf; rw [notchLoop]
  | succ fuel ih =>
    intro i tf
    rw [notchLoop]
    by_cases hi : i < frequencies.length
    · have he : elemAt frequencies i = .ok frequencies[i] := by
        unfold elemAt
        rw [List.getElem?_eq_getElem hi]
      rw [if_pos hi, he]
      simp only [bind, Except.bind, pure, Except.pure]
      rw [if_neg (hpass _ (List.getElem_mem hi))]
      exact ih (i + 1) tf
    · rw [if_neg hi]

/-- When no point of the frequency axis lies in the stop band, `notchFilter` returns
the real part of the forward transform of the signal. -/
theorem notchFilter_pass (unityRoot : Nat → Cx α) (signal : List α)
    (sampleRate humFrequency bandwidth : α)
    (hpass : ∀ f ∈ linspace 0 sampleRate signal.length,
      ¬ |f - humFrequency| < bandwidth / 2) :
    notchFilter unityRoot signal sampleRate humFrequency bandwidth
      = .ok ((fft unityRoot signal).map Cx.re) := by
  unfold notchFilter
  simp only [notchLoop_pass _ _ _ hpass, bind, Except.bind, pure, Except.pure]
  unfold schur
  rw [if_pos (by rw [fft_length, List.length_replicate]),
    zipWith_mul_replicate_one_cx _ _ (fft_length unityRoot signal)]

end NotchLemmas

section NotchClaims

/-- C4 (the code at the failing input): on the signal `[1, 3]` with `sampleRate = 10`,
`centerFrequency = 60` and `bandwidth = 2` (no axis point in the stop band),
`notchFilter` returns `[4, -2]`, the real part of the forward transform, whereas the
real part of the inverse transform of the filtered spectrum, which the claim and the
comment at line 24 of the source describe, is the input `[1, 3]`. The root of unity is
the real one, `exp (-2πi / N)`. -/
theorem notchFilter_returns_spectrum_not_inverse :
    notchFilter
        (fun N : ℕ => (⟨Real.cos (2 * Real.pi / N), -Real.sin (2 * Real.pi / N)⟩ : Cx ℝ))
        [1, 3] 10 60 2 = .ok [4, -2] ∧
      notchFilterSpec
        (fun N : ℕ => (⟨Real.cos (2 * Real.pi / N), -Real.sin (2 * Real.pi / N)⟩ : Cx ℝ))
        [1, 3] 10 60 2 = [1, 3] ∧
      ([4, -2] : List ℝ) ≠ [1, 3] := by
  have hpass : ∀ f ∈ linspace (0 : ℝ) 10 ([1, 3] : List ℝ).length, ¬ |f - 60| < 2 / 2 := by
    intro f hf
    simp [linspace, List.range_succ] at hf
    rcases hf with rfl | rfl <;> norm_num [abs_lt]
  refine ⟨?_, ?_, ?_⟩
  · rw [notchFilter_pass _ _ _ _ _ hpass]
    simp [fft, List.range_succ, Cx.pow, Cx.ofReal, Cx.mul_def, Cx.add_def, Cx.zero_def,
      Cx.one_def]
    norm_num
  · simp [notchFilterSpec, ifft, fft, linspace, List.range_succ, Cx.pow, Cx.ofReal, Cx.conj,
      Cx.mul_def, Cx.add_def, Cx.zero_def, Cx.one_def]
    norm_num [abs_lt]
  · simp

/-- C5 (the code at the failing input): with `bandwidth = 0`, whatever the sample rate
and the centre frequency, `notchFilter` on `[1, 1]` returns `[2, 0]`, the real part of
the forward transform, and not the input `[1, 1]`. The root of unity is the real one,
`exp (-2πi / N)`. -/
theorem notchFilter_zero_bandwidth_not_identity (sampleRate centerFrequency : ℝ) :
    notchFilter
        (fun N : ℕ => (⟨Real.cos (2 * Real.pi / N), -Real.sin (2 * Real.pi / N)⟩ : Cx ℝ))
        [1, 1] sampleRate centerFrequency 0 = .ok [2, 0] ∧
      ([2, 0] : List ℝ) ≠ [1, 1] := by
  constructor
  · rw [notchFilter_pass]
    · simp [fft, List.range_succ, Cx.pow, Cx.ofReal, Cx.mul_def, Cx.add_def, Cx.zero_def,
        Cx.one_def]
      norm_num
    · intro f _
      simp only [zero_div, not_lt]
      exact abs_nonneg _
  · simp

end NotchClaims

/-! ## The end-to-end scenario -/

section Scenario

/-- C7 (counterexample): on `[1, 1, 1, 1, 1]` with `windowSize = 3` the low-pass filter
returns `[0, 1, 1, 1, 0]`, which is not `[1, 1, 1, 1, 1]`, and the high-pass filter
returns `[1, 0, 0, 0, 1]`, which is not `[0, 0, 0, 0, 0]`. -/
theorem scenario_not_as_specified :
    lowPassFilter ([1, 1, 1, 1, 1] : List ℚ) 3 = .ok [0, 1, 1, 1, 0] ∧
      ([0, 1, 1, 1, 0] : List ℚ) ≠ [1, 1, 1, 1, 1] ∧
      highPassFilter ([1, 1, 1, 1, 1] : List ℚ) 3 = .ok [1, 0, 0, 0, 1] ∧
      ([1, 0, 0, 0, 1] : List ℚ) ≠ [0, 0, 0, 0, 0] := by
  refine ⟨?_, by simp, ?_, by simp⟩
  · simp [lowPassFilter, uwordSub, uwordModulus, lowPassLoop, subvec, dot, setElem, elemAt,
      Int.tdiv, bind, Except.bind, pure, Except.pure]
    norm_num
  · simp [highPassFilter, vecSub, lowPassFilter, uwordSub, uwordModulus, lowPassLoop, subvec,
      dot, setElem, elemAt, Int.tdiv, bind, Except.bind, pure, Except.pure]
    norm_num

/-- C7 (amended): for the signal `[1, 1, 1, 1, 1]` and `windowSize = 3`, `lowPassFilter`
returns `[0, 1, 1, 1, 0]`; `highPassFilter` of the signal returns `[1, 0, 0, 0, 1]`, whose
features are `[sqrt (2 / 5), 2 / 5]`; and `highPassFilter` of the low-pass output (the
order of the pipeline in `main`) returns `[0, 1 / 3, 0, 1 / 3, 0]`, whose features are
`[sqrt (2 / 15), 2 / 15]`. -/
theorem scenario_constant_signal :
    lowPassFilter ([1, 1, 1, 1, 1] : List ℝ) 3 = .ok [0, 1, 1, 1, 0] ∧
      highPassFilter ([1, 1, 1, 1, 1] : List ℝ) 3 = .ok [1, 0, 0, 0, 1] ∧
      extractFeatures Real.sqrt ([1, 0, 0, 0, 1] : List ℝ) = [Real.sqrt (2 / 5), 2 / 5] ∧
      highPassFilter ([0, 1, 1, 1, 0] : List ℝ) 3 = .ok [0, 1 / 3, 0, 1 / 3, 0] ∧
      extractFeatures Real.sqrt ([0, 1 / 3, 0, 1 / 3, 0] : List ℝ)
        = [Real.sqrt (2 / 15), 2 / 15] := by
  refine ⟨?_, ?_, ?_, ?_, ?_⟩
  · simp [lowPassFilter, uwordSub, uwordModulus, lowPassLoop, subvec, dot, setElem, elemAt,
      Int.tdiv, bind, Except.bind, pure, Except.pure]
    norm_num
  · simp [highPassFilter, vecSub, lowPassFilter, uwordSub, uwordModulus, lowPassLoop, subvec,
      dot, setElem, elemAt, Int.tdiv, bind, Except.bind, pure, Except.pure]
    norm_num
  · simp [extractFeatures, computeRMS, computeMAV]
    norm_num
  · simp [highPassFilter, vecSub, lowPassFilter, uwordSub, uwordModulus, lowPassLoop, subvec,
      dot, setElem, elemAt, Int.tdiv, bind, Except.bind, pure, Except.pure]
    norm_num
  · rw [extractFeatures_unfold]
    have h : ((([0, 1 / 3, 0, 1 / 3, 0] : List ℝ).map abs).sum
        / (([0, 1 / 3, 0, 1 / 3, 0] : List ℝ).length : ℝ)) = 2 / 15 := by
      simp only [List.map_cons, List.map_nil, List.sum_cons, List.sum_nil, List.length_cons,
        List.length_nil, abs_zero, abs_of_pos (show (0 : ℝ) < 1 / 3 by norm_num)]
      norm_num
    rw [h]

end Scenario



/-! ## Further properties of the low-pass and high-pass filters -/

section FilterLemmas

variable {α : Type} [LinearOrderedField α]

theorem getElem?_zipWith_sub (S L : List α) (i : Nat) (s l : α) (hs : S[i]? = some s)
    (hl : L[i]? = some l) : (List.zipWith (· - ·) S L)[i]? = some (s - l) := by
  rw [List.getElem?_zipWith, hs, hl]

theorem uwordSub_of_gt (n h : Nat) (hn : n < uwordModulus) (hh : n < h)
    (hh2 : h < uwordModulus) : uwordSub n h = n + uwordModulus - h := by
  unfold uwordSub
  unfold uwordModulus at *
  omega

/-- When half the window exceeds the signal length the unsigned loop bound wraps to a
huge value, the loop is entered with `i = half`, and the first `subvec` call is out
of bounds. -/
theorem lowPassFilter_wrap_error (signal : List α) (windowSize : Int) (hw : 0 ≤ windowSize)
    (hw2 : windowSize < 2 ^ 31) (hn : signal.length < uwordModulus)
    (hh : signal.length < windowSize.toNat / 2) :
    lowPassFilter signal windowSize = .error .outOfBounds := by
  unfold lowPassFilter
  rw [if_neg (by omega)]
  simp only [tdiv_two_toNat windowSize hw]
  have hlt : windowSize.toNat / 2 < uwordModulus := by
    unfold uwordModulus
    omega
  have hsmall : windowSize.toNat / 2 < 2 ^ 31 := by omega
  rw [uwordSub_of_gt _ _ hn hh hlt]
  generalize windowSize.toNat / 2 = h at hh hlt hsmall
  obtain ⟨k, hk⟩ : ∃ k, signal.length + uwordModulus - h - h = k + 1 := by
    refine ⟨signal.length + uwordModulus - h - h - 1, ?_⟩
    unfold uwordModulus at *
    omega
  rw [hk, lowPassLoop, if_pos (by omega)]
  unfold subvec
  rw [if_pos (by omega)]
  rfl

/-- For an even window size every index the loop visits receives the input sample:
the segment has one element more than the window. -/
theorem lowPassFilter_even_spec (signal : List α) (w : ℤ) (i : ℕ) (hw : 2 ≤ w)
    (heven : w % 2 = 0) (hn : signal.length < 2 ^ 64) (hlo : w / 2 ≤ i)
    (hhi : i + w / 2 < signal.length) :
    ∃ out, lowPassFilter signal w = .ok out ∧ out.length = signal.length ∧
      out[i]? = signal[i]? := by
  obtain ⟨res, hres, hlen, hget⟩ :=
    lowPassFilter_spec signal w (by omega) hn (by omega)
  have hi : i < signal.length := by omega
  refine ⟨res, hres, hlen, ?_⟩
  rw [hget i hi, if_pos (by omega)]
  unfold cellValue
  rw [if_neg (by omega), List.getElem?_eq_getElem hi, List.getD_eq_getElem signal 0 hi]

/-- C11 (counterexample): on the signal `[1, 2, 6]` with the even window size 2 the
in-range index 1 (`half = 1`) receives the input sample 2, which is neither the sum
of the three samples of the segment over 3 nor that sum over 2. -/
theorem lowPassFilter_even_window_not_average :
    lowPassFilter ([1, 2, 6] : List ℚ) 2 = .ok [0, 2, 0] ∧
      ([0, 2, 0] : List ℚ)[1]? ≠ some ((1 + 2 + 6) / 3) ∧
      ([0, 2, 0] : List ℚ)[1]? ≠ some ((1 + 2 + 6) / 2) := by
  refine ⟨?_, ?_, ?_⟩
  · simp [lowPassFilter, uwordSub, uwordModulus, lowPassLoop, subvec, dot, setElem, elemAt,
      Int.tdiv, bind, Except.bind, pure, Except.pure]
  · norm_num
  · norm_num

/-- C11 (amended): for a signal of length `n < 2 ^ 64`, an even window size `w ≥ 2` with
`half = w / 2` and an index `i` with `half ≤ i` and `i + half < n`, the segment
`signal[i - half .. i + half]` has `w + 1` elements, and `lowPassFilter` stores the
input sample itself at `i`: no average is taken. -/
theorem lowPassFilter_even_window_passthrough (signal : List α) (w : ℤ) (i : ℕ)
    (hw : 2 ≤ w) (heven : w % 2 = 0) (hn : signal.length < 2 ^ 64) (hlo : w / 2 ≤ i)
    (hhi : i + w / 2 < signal.length) :
    ∃ seg out, subvec signal (i - (w / 2).toNat) (i + (w / 2).toNat) = .ok seg ∧
      (seg.length : ℤ) = w + 1 ∧ lowPassFilter signal w = .ok out ∧
      out[i]? = signal[i]? := by
  obtain ⟨out, hout, _, hget⟩ :=
    lowPassFilter_even_spec signal w i hw heven hn hlo hhi
  refine ⟨_, out, subvec_ok signal (w / 2).toNat i (by omega) (by omega), ?_, hout, hget⟩
  rw [segment_length signal (w / 2).toNat i (by omega) (by omega)]
  omega

/-- Witness of C11 (amended): the signal `[1, 2, 6]`, window size 2, index 1. -/
theorem lowPassFilter_even_window_passthrough_witness :
    ∃ seg out, subvec ([1, 2, 6] : List ℚ) (1 - ((2 : ℤ) / 2).toNat)
        (1 + ((2 : ℤ) / 2).toNat) = .ok seg ∧
      (seg.length : ℤ) = 2 + 1 ∧ lowPassFilter ([1, 2, 6] : List ℚ) 2 = .ok out ∧
      out[1]? = ([1, 2, 6] : List ℚ)[1]? :=
  lowPassFilter_even_window_passthrough [1, 2, 6] 2 1 (by decide) (by decide) (by decide)
    (by decide) (by decide)

/-- C12 (the code at the failing input): on the one-sample signal `[1]` with
`windowSize = 4` (so `half = 2 > n = 1`) the loop bound `n_elem - halfWindowSize` wraps
to `2 ^ 64 - 1`, the loop is entered and `subvec(0, 4)` is out of bounds: both
`lowPassFilter` and `highPassFilter` throw instead of returning a signal of length 1. -/
theorem lowPassFilter_throws_on_wide_window :
    uwordSub ([1] : List ℚ).length 2 = 2 ^ 64 - 1 ∧
      lowPassFilter ([1] : List ℚ) 4 = .error .outOfBounds ∧
      highPassFilter ([1] : List ℚ) 4 = .error .outOfBounds := by
  have h : lowPassFilter ([1] : List ℚ) 4 = .error .outOfBounds :=
    lowPassFilter_wrap_error [1] 4 (by decide) (by decide) (by decide) (by decide)
  refine ⟨by decide, h, ?_⟩
  unfold highPassFilter
  rw [h]
  rfl

/-- C16: for a signal of length `n < 2 ^ 64` and a window size `w ≥ 1` with
`half = w / 2 ≤ n`, at every out-of-range index `i` (`i < half` or `i + half ≥ n`) the
output of `lowPassFilter` is 0 and the output of `highPassFilter` is the input
sample. -/
theorem filters_outside_range (signal : List α) (w : ℤ) (i : ℕ) (hw : 1 ≤ w)
    (hn : signal.length < 2 ^ 64) (hh : w / 2 ≤ signal.length) (hi : i < signal.length)
    (hout : (i : ℤ) < w / 2 ∨ (signal.length : ℤ) ≤ i + w / 2) :
    ∃ L H, lowPassFilter signal w = .ok L ∧ highPassFilter signal w = .ok H ∧
      L[i]? = some 0 ∧ H[i]? = signal[i]? := by
  obtain ⟨L, hL, _, hget⟩ := lowPassFilter_spec signal w (by omega) hn (by omega)
  have hLi : L[i]? = some 0 := by rw [hget i hi, if_neg (by omega)]
  refine ⟨L, _, hL, highPassFilter_of_lowPass signal L w hL, hLi, ?_⟩
  rw [getElem?_zipWith_sub signal L i signal[i] 0 (List.getElem?_eq_getElem hi) hLi,
    sub_zero, List.getElem?_eq_getElem hi]

/-- Witness of C16: the signal `[1, 2, 3]`, window size 3, index 0. -/
theorem filters_outside_range_witness :
    ∃ L H, lowPassFilter ([1, 2, 3] : List ℚ) 3 = .ok L ∧
      highPassFilter ([1, 2, 3] : List ℚ) 3 = .ok H ∧
      L[0]? = some 0 ∧ H[0]? = ([1, 2, 3] : List ℚ)[0]? :=
  filters_outside_range [1, 2, 3] 3 0 (by decide) (by decide) (by decide) (by decide)
    (by decide)

/-- C17: for a signal of length `n < 2 ^ 64`, an even window size `w ≥ 2` with
`half = w / 2` and an in-range index `i` (`half ≤ i` and `i + half < n`), the output of
`lowPassFilter` at `i` is the input sample and the output of `highPassFilter` at `i`
is 0. -/
theorem filters_even_window_in_range (signal : List α) (w : ℤ) (i : ℕ) (hw : 2 ≤ w)
    (heven : w % 2 = 0) (hn : signal.length < 2 ^ 64) (hlo : w / 2 ≤ i)
    (hhi : i + w / 2 < signal.length) :
    ∃ L H, lowPassFilter signal w = .ok L ∧ highPassFilter signal w = .ok H ∧
      L[i]? = signal[i]? ∧ H[i]? = some 0 := by
  obtain ⟨L, hL, _, hget⟩ := lowPassFilter_even_spec signal w i hw heven hn hlo hhi
  have hi : i < signal.length := by omega
  refine ⟨L, _, hL, highPassFilter_of_lowPass signal L w hL, hget, ?_⟩
  rw [getElem?_zipWith_sub signal L i signal[i] signal[i] (List.getElem?_eq_getElem hi)
    (by rw [hget, List.getElem?_eq_getElem hi]), sub_self]

/-- Witness of C17: the signal `[1, 2, 3, 4, 5]`, window size 4, index 2. -/
theorem filters_even_window_in_range_witness :
    ∃ L H, lowPassFilter ([1, 2, 3, 4, 5] : List ℚ) 4 = .ok L ∧
      highPassFilter ([1, 2, 3, 4, 5] : List ℚ) 4 = .ok H ∧
      L[2]? = ([1, 2, 3, 4, 5] : List ℚ)[2]? ∧ H[2]? = some 0 :=
  filters_even_window_in_range [1, 2, 3, 4, 5] 4 2 (by decide) (by decide) (by decide)
    (by decide) (by decide)

end FilterLemmas

/-! ## Further properties of feature extraction -/

section FeatureClaims

variable {α : Type} [LinearOrderedField α]

theorem computeMAV_nonneg (x : List α) : 0 ≤ computeMAV x := by
  unfold computeMAV
  simp only [foldl_abs, zero_add]
  apply div_nonneg
  · apply List.sum_nonneg
    intro a ha
    obtain ⟨b, _, rfl⟩ := List.mem_map.mp ha
    exact abs_nonneg b
  · exact Nat.cast_nonneg _

theorem computeRMS_eq (sqrt : α → α) (x : List α) :
    computeRMS sqrt x = sqrt (computeMAV x) := rfl

/-- C13 (counterexample): on the empty signal `extractFeatures` does return a feature
vector: a list of exactly two elements, the results of `computeRMS` and `computeMAV`.
(Their values come from the division `0.0 / 0`, which in `double` arithmetic raises no
error; the exact-arithmetic model does not say what they are.) -/
theorem extractFeatures_empty_returns :
    (extractFeatures Real.sqrt ([] : List ℝ)).length = 2 ∧
      extractFeatures Real.sqrt ([] : List ℝ)
        = [computeRMS Real.sqrt ([] : List ℝ), computeMAV ([] : List ℝ)] :=
  ⟨rfl, rfl⟩

/-- C13 (amended): `extractFeatures` has no failure path: for every signal, the empty one
included, it returns a vector of exactly two elements, the result of `computeRMS`
followed by the result of `computeMAV`. -/
theorem extractFeatures_total (sqrt : α → α) (x : List α) :
    (extractFeatures sqrt x).length = 2 ∧
      extractFeatures sqrt x = [computeRMS sqrt x, computeMAV x] :=
  ⟨rfl, rfl⟩

/-- C18: for every non-empty real signal `x`, with the real square root, the square of
`computeRMS x` is `computeMAV x`, `computeRMS x` is the square root of `computeMAV x`,
and the feature vector is `[sqrt (computeMAV x), computeMAV x]`. -/
theorem rms_determined_by_mav (x : List ℝ) (hx : x ≠ []) :
    computeRMS Real.sqrt x ^ 2 = computeMAV x ∧
      computeRMS Real.sqrt x = Real.sqrt (computeMAV x) ∧
      extractFeatures Real.sqrt x = [Real.sqrt (computeMAV x), computeMAV x] := by
  have _hlen : 0 < x.length := List.length_pos.mpr hx
  refine ⟨?_, computeRMS_eq Real.sqrt x, rfl⟩
  rw [computeRMS_eq, Real.sq_sqrt (computeMAV_nonneg x)]

/-- Witness of C18: the signal `[3, -4]`. -/
theorem rms_determined_by_mav_witness :
    computeRMS Real.sqrt ([3, -4] : List ℝ) ^ 2 = computeMAV ([3, -4] : List ℝ) ∧
      computeRMS Real.sqrt ([3, -4] : List ℝ) = Real.sqrt (computeMAV ([3, -4] : List ℝ)) ∧
      extractFeatures Real.sqrt ([3, -4] : List ℝ)
        = [Real.sqrt (computeMAV ([3, -4] : List ℝ)), computeMAV ([3, -4] : List ℝ)] :=
  rms_determined_by_mav [3, -4] (by simp)

end FeatureClaims

/-! ## Further properties of the notch filter -/

section NotchMore

variable {α : Type} [LinearOrderedField α]

theorem linspace_length (start stop : α) (num : Nat) :
    (linspace start stop num).length = num := by
  unfold linspace
  by_cases h2 : 2 ≤ num
  · rw [if_pos h2]
    simp only [List.length_append, List.length_map, List.length_range, List.length_singleton]
    omega
  · rw [if_neg h2]
    by_cases h1 : num = 1
    · rw [if_pos h1, h1]
      rfl
    · rw [if_neg h1]
      have h0 : num = 0 := by omega
      rw [h0]
      rfl

/-- The loop of `notchFilter` never throws when the transfer function has as many
elements as the frequency axis, and it keeps that number of elements. -/
theorem notchLoop_ok (frequencies : List α) (humFrequency bandwidth : α) :
    ∀ (fuel i : Nat) (transferFunction : List (Cx α)),
      transferFunction.length = frequencies.length →
      ∃ res, notchLoop frequencies humFrequency bandwidth fuel i transferFunction = .ok res ∧
        res.length = frequencies.length := by
  intro fuel
  induction fuel with
  | zero =>
    intro i tf htf
    exact ⟨tf, by rw [notchLoop], htf⟩
  | succ fuel ih =>
    intro i tf htf
    rw [notchLoop]
    by_cases hi : i < frequencies.length
    · have he : elemAt frequencies i = .ok frequencies[i] := by
        unfold elemAt
        rw [List.getElem?_eq_getElem hi]
      rw [if_pos hi, he]
      simp only [bind, Except.bind, pure, Except.pure]
      by_cases hstop : |frequencies[i] - humFrequency| < bandwidth / 2
      · rw [if_pos hstop]
        unfold setElem
        rw [if_pos (by omega)]
        exact ih (i + 1) (tf.set i 0) (by rw [List.length_set, htf])
      · rw [if_neg hstop]
        exact ih (i + 1) tf htf
    · rw [if_neg hi]
      exact ⟨tf, rfl, htf⟩

/-- The points of the frequency axis of `notchFilter` lie between 0 and the sample
rate. -/
theorem linspace_mem_bounds (stop : α) (hstop : 0 ≤ stop) (num : Nat) :
    ∀ f ∈ linspace 0 stop num, 0 ≤ f ∧ f ≤ stop := by
  intro f hf
  unfold linspace at hf
  by_cases h2 : 2 ≤ num
  · rw [if_pos h2] at hf
    rcases List.mem_append.mp hf with hf | hf
    · obtain ⟨i, hi, rfl⟩ := List.mem_map.mp hf
      have hi2 : i < num - 1 := List.mem_range.mp hi
      have hm : (0 : α) < ((num - 1 : ℕ) : α) := by
        have : 0 < num - 1 := by omega
        exact_mod_cast this
      have hile : (i : α) ≤ ((num - 1 : ℕ) : α) := by exact_mod_cast hi2.le
      have hd : 0 ≤ (stop - 0) / ((num - 1 : ℕ) : α) := by
        rw [sub_zero]
        exact div_nonneg hstop hm.le
      constructor
      · rw [zero_add]
        exact mul_nonneg (Nat.cast_nonneg i) hd
      · rw [zero_add]
        calc (i : α) * ((stop - 0) / ((num - 1 : ℕ) : α))
            ≤ ((num - 1 : ℕ) : α) * ((stop - 0) / ((num - 1 : ℕ) : α)) :=
              mul_le_mul_of_nonneg_right hile hd
          _ = stop := by rw [sub_zero, mul_div_cancel₀ _ hm.ne']
    · rw [List.mem_singleton.mp hf]
      exact ⟨hstop, le_refl _⟩
  · rw [if_neg h2] at hf
    by_cases h1 : num = 1
    · rw [if_pos h1] at hf
      rw [List.mem_singleton.mp hf]
      exact ⟨hstop, le_refl _⟩
    · rw [if_neg h1] at hf
      exact absurd hf (List.not_mem_nil f)

/-- C14: for every signal and all parameters (in particular with
`bandwidth ≤ sampleRate`, and for constant signals), `notchFilter` returns a signal
with as many elements as its input. -/
theorem notchFilter_length (unityRoot : Nat → Cx α) (signal : List α)
    (sampleRate humFrequency bandwidth : α) :
    ∃ out, notchFilter unityRoot signal sampleRate humFrequency bandwidth = .ok out ∧
      out.length = signal.length := by
  obtain ⟨tf, htf, hlen⟩ :=
    notchLoop_ok (linspace 0 sampleRate signal.length) humFrequency bandwidth
      (linspace 0 sampleRate signal.length).length 0 (List.replicate signal.length 1)
      (by rw [List.length_replicate, linspace_length])
  rw [linspace_length] at hlen
  unfold notchFilter
  simp only [htf, bind, Except.bind, pure, Except.pure]
  unfold schur
  rw [if_pos (by rw [fft_length, hlen])]
  refine ⟨_, rfl, ?_⟩
  rw [List.length_map, List.length_zipWith, fft_length, hlen, Nat.min_self]

/-- C15 (counterexample): for the one-sample signal `[5]` with `centerFrequency = 0` and
`bandwidth = 2` the point 0 lies in the stop band (`|0 - 0| < 1`), yet with
`sampleRate = 10` the filter returns `[5]`, not `[0]`: the single axis point is the
sample rate, not 0. With `sampleRate = 0` the same call returns `[0]`, so the result
depends on the sample rate. The root of unity for one sample is 1. -/
theorem notchFilter_single_sample_not_zero_axis :
    linspace (0 : ℚ) 10 1 = [10] ∧
      |(0 : ℚ) - 0| < 2 / 2 ∧
      notchFilter (fun _ => (⟨1, 0⟩ : Cx ℚ)) [5] 10 0 2 = .ok [5] ∧
      notchFilter (fun _ => (⟨1, 0⟩ : Cx ℚ)) [5] 0 0 2 = .ok [0] ∧
      ([5] : List ℚ) ≠ [0] := by
  refine ⟨?_, ?_, ?_, ?_, ?_⟩
  · simp [linspace]
  · norm_num
  · simp [notchFilter, notchLoop, linspace, fft, List.range_succ, schur, setElem, elemAt, bind,
      Except.bind,
      pure, Except.pure, Cx.pow, Cx.ofReal, Cx.mul_def, Cx.add_def, Cx.zero_def, Cx.one_def]
  · simp [notchFilter, notchLoop, linspace, fft, List.range_succ, schur, setElem, elemAt, bind,
      Except.bind,
      pure, Except.pure, Cx.pow, Cx.ofReal, Cx.mul_def, Cx.add_def, Cx.zero_def, Cx.one_def]
  · simp

/-- C15 (amended): for every one-sample signal `[x]` the frequency axis is the single
point `sampleRate`, and `notchFilter` returns `[0]` when
`|sampleRate - centerFrequency| < bandwidth / 2` and `[x]` otherwise, whatever the root
of unity supplied. -/
theorem notchFilter_single_sample (unityRoot : Nat → Cx α) (x sampleRate humFrequency
    bandwidth : α) :
    linspace 0 sampleRate ([x] : List α).length = [sampleRate] ∧
      notchFilter unityRoot [x] sampleRate humFrequency bandwidth
        = .ok [if |sampleRate - humFrequency| < bandwidth / 2 then 0 else x] := by
  constructor
  · simp [linspace]
  · by_cases hstop : |sampleRate - humFrequency| < bandwidth / 2
    · simp [notchFilter, notchLoop, linspace, fft, List.range_succ, schur, setElem, elemAt, bind,
      Except.bind,
        pure, Except.pure, Cx.pow, Cx.ofReal, Cx.mul_def, Cx.add_def, Cx.zero_def,
        Cx.one_def, hstop]
    · simp [notchFilter, notchLoop, linspace, fft, List.range_succ, schur, setElem, elemAt, bind,
      Except.bind,
        pure, Except.pure, Cx.pow, Cx.ofReal, Cx.mul_def, Cx.add_def, Cx.zero_def,
        Cx.one_def, hstop]

/-- C19: with the parameters of `main` (`sampleRate = 10`, `humFrequency = 60`,
`bandwidth = 2`), for every signal of every length all points of the frequency axis
lie in `[0, 10]`, none satisfies `|f - 60| < 1`, the loop leaves the transfer function
all ones, and `notchFilter` returns the real part of the forward transform of the
signal. -/
theorem notchFilter_main_parameters (unityRoot : Nat → Cx α) (signal : List α) :
    (∀ f ∈ linspace (0 : α) 10 signal.length, 0 ≤ f ∧ f ≤ 10 ∧ ¬ |f - 60| < 2 / 2) ∧
      notchLoop (linspace (0 : α) 10 signal.length) 60 2
          (linspace (0 : α) 10 signal.length).length 0 (List.replicate signal.length 1)
        = .ok (List.replicate signal.length 1) ∧
      notchFilter unityRoot signal 10 60 2 = .ok ((fft unityRoot signal).map Cx.re) := by
  have hax : ∀ f ∈ linspace (0 : α) 10 signal.length,
      0 ≤ f ∧ f ≤ 10 ∧ ¬ |f - 60| < 2 / 2 := by
    intro f hf
    obtain ⟨h0, h10⟩ := linspace_mem_bounds (10 : α) (by norm_num) signal.length f hf
    refine ⟨h0, h10, ?_⟩
    rw [abs_lt]
    intro h
    linarith [h.1]
  have hpass : ∀ f ∈ linspace (0 : α) 10 signal.length, ¬ |f - 60| < 2 / 2 :=
    fun f hf => (hax f hf).2.2
  exact ⟨hax, notchLoop_pass _ _ _ hpass _ _ _, notchFilter_pass _ _ _ _ _ hpass⟩

end NotchMore

end Wingman
